import Mathlib

/-!
Verification of the time-management core (TimeFrac, Calendar, TimeInterval,
TimeInstant, Alarm, Clock) of the OMEGA ocean-model repository.

The repository snapshot ships the unit test `test/infra/TimeMgrTest.cpp` for
this component but not the implementation sources themselves, so the
definitions below are modelled from the specification's description of each
operation and cross-checked against the concrete expected values that the
repository's unit test hard-codes.  Machine integers (`I8`) are modelled as
unbounded `Int`/`Nat`: the specification declares integer overflow at
multi-millennia scales an explicit non-goal.
-/

/-- Modelled from the spec: `TimeFrac` is the exact rational count of seconds
`whole + numerator/denominator` with 64-bit integer fields (overflow out of
scope, so fields are unbounded integers here). -/
structure TimeFrac where
  whole : Int
  numer : Int
  denom : Int
deriving DecidableEq

/-- Modelled from the spec: addition first converts both operands to a common
denominator (the LCM) and adds in the combined numerator space; the result is
left unsimplified. -/
def TimeFrac.add (a b : TimeFrac) : TimeFrac :=
  let l : Int := (Int.lcm a.denom b.denom : Nat)
  ⟨a.whole + b.whole, a.numer * (l / a.denom) + b.numer * (l / b.denom), l⟩

/-- Modelled from the spec: subtraction over the common (LCM) denominator,
left unsimplified. -/
def TimeFrac.sub (a b : TimeFrac) : TimeFrac :=
  let l : Int := (Int.lcm a.denom b.denom : Nat)
  ⟨a.whole - b.whole, a.numer * (l / a.denom) - b.numer * (l / b.denom), l⟩

/-- Modelled from the spec: comparison operators cross-multiply rather than
divide; equality compares the exact rational values. -/
def TimeFrac.eqv (a b : TimeFrac) : Bool :=
  decide ((a.whole * a.denom + a.numer) * b.denom
            = (b.whole * b.denom + b.numer) * a.denom)

/-- Modelled from the spec: `<=` comparison by cross-multiplication (valid for
the positive denominators the invariant guarantees). -/
def TimeFrac.le (a b : TimeFrac) : Bool :=
  decide ((a.whole * a.denom + a.numer) * b.denom
            ≤ (b.whole * b.denom + b.numer) * a.denom)

/-- Modelled from the spec: `convert(new_denominator)` re-expresses the
fraction over the requested denominator without reducing; the whole part is
folded into the numerator and no simplification is applied. -/
def TimeFrac.convert (a : TimeFrac) (nd : Int) : TimeFrac :=
  ⟨0, (a.whole * a.denom + a.numer) * nd / a.denom, nd⟩

/-- The exact rational value `whole + numerator/denominator` represented by a
`TimeFrac`. -/
def TimeFrac.value (a : TimeFrac) : ℚ :=
  (a.whole : ℚ) + (a.numer : ℚ) / (a.denom : ℚ)

/-- A `TimeFrac` is proper when its denominator is positive and its
fractional part lies in `[0, 1)`; all fractions produced by the calendar
layer below are of this shape. -/
def TimeFrac.Proper (a : TimeFrac) : Prop :=
  0 < a.denom ∧ 0 ≤ a.numer ∧ a.numer < a.denom

instance (a : TimeFrac) : Decidable a.Proper := by
  unfold TimeFrac.Proper
  infer_instance

/-- Modelled from the spec: the supported calendar kinds.  `custom` carries
the caller-supplied per-month day counts and day length. -/
inductive CalendarKind where
  | gregorian
  | noLeap
  | julian
  | day360
  | julianDay
  | modJulianDay
  | noCalendar
  | custom (months : List Nat) (secondsPerDay : Nat)
deriving DecidableEq

/-- Modelled from the spec: the Gregorian leap rule is divisible-by-4 AND
(not divisible-by-100 OR divisible-by-400); the `== 0` remainder tests agree
with the C++ truncated `%` for every integer year. -/
def gregorianLeap (y : Int) : Bool :=
  y % 4 == 0 && (y % 100 != 0 || y % 400 == 0)

/-- Modelled from the spec: `isLeapYear` per calendar kind; Julian is
divisible-by-4 only; NoLeap, 360-day, Julian-Day and NoCalendar kinds never
report a leap year. -/
def Calendar.isLeapYear : CalendarKind → Int → Bool
  | .gregorian, y => gregorianLeap y
  | .julian, y => y % 4 == 0
  | _, _ => false

/-- The standard 365-day month-length table shared by the Gregorian, NoLeap
and Julian kinds (February listed at its non-leap length). -/
def stdMonths : List Nat := [31, 28, 31, 30, 31, 30, 31, 31, 30, 31, 30, 31]

/-- Per-kind month-length table (non-leap year). -/
def calMonths : CalendarKind → List Nat
  | .day360 => List.replicate 12 30
  | .custom ms _ => ms
  | _ => stdMonths

/-- Per-kind day length in seconds. -/
def calSecondsPerDay : CalendarKind → Nat
  | .custom _ spd => spd
  | _ => 86400

/-- Modelled from the spec: the Gregorian elapsed timeline is anchored at the
Julian-Day epoch; this constant is the elapsed-second count of the proleptic
Gregorian date 0000-01-01 00:00:00, fixed so that the repository test's
reference value (Julian Day 2436116.31 for 1957-10-04 19:26:24.25) is
reproduced exactly.  The other kinds anchor year 0 (or day 1) at zero. -/
def calSecondsOffset : CalendarKind → Nat
  | .gregorian => 148699540800
  | _ => 0

/-- Kinds that carry no year/month structure: only a running day count plus
time of day applies (Julian Day, Modified Julian Day, NoCalendar). -/
def dayCountOnly : CalendarKind → Bool
  | .julianDay => true
  | .modJulianDay => true
  | .noCalendar => true
  | _ => false

/-- Insert the leap day into February (the second month) of a month table. -/
def addLeapDay : List Nat → List Nat
  | m1 :: m2 :: rest => m1 :: (m2 + 1) :: rest
  | l => l

/-- Month lengths of a given (nonnegative) year under a calendar kind. -/
def monthLengths (k : CalendarKind) (y : Nat) : List Nat :=
  if Calendar.isLeapYear k y then addLeapDay (calMonths k) else calMonths k

/-- Number of days in a (nonnegative) year. -/
def daysInYear (k : CalendarKind) (y : Nat) : Nat :=
  (monthLengths k y).sum

/-- Modelled from the spec: days elapsed before year `y`, obtained by
counting leap days since the fixed epoch (year 0). -/
def daysBeforeYear (k : CalendarKind) : Nat → Nat
  | 0 => 0
  | y + 1 => daysBeforeYear k y + daysInYear k y

/-- Days elapsed within year `y` before month `m` (1-based), including the
leap day when the month is past February in a leap year. -/
def daysBeforeMonth (k : CalendarKind) (y m : Nat) : Nat :=
  ((monthLengths k y).take (m - 1)).sum

/-- Absolute (epoch-based) day number of a calendar date. -/
def dateToDay (k : CalendarKind) (y m d : Nat) : Nat :=
  daysBeforeYear k y + daysBeforeMonth k y m + (d - 1)

/-- Modelled from the spec: `getDateTime` recovers the year by repeatedly
subtracting whole years from the day count.  The fuel argument (always called
with fuel exceeding the day count) makes the recursion structural; since
every year has at least one day the fuel never runs out on reachable
inputs. -/
def findYearAux (k : CalendarKind) : Nat → Nat → Nat → Nat × Nat
  | 0, y, r => (y, r)
  | fuel + 1, y, r =>
      if r < daysInYear k y then (y, r)
      else findYearAux k fuel (y + 1) (r - daysInYear k y)

/-- Modelled from the spec: consume whole months from the month-length table,
returning the 0-based month index and the remaining day offset. -/
def splitMonths : List Nat → Nat → Nat × Nat
  | [], r => (0, r)
  | len :: rest, r =>
      if r < len then (0, r)
      else
        let p := splitMonths rest (r - len)
        (p.1 + 1, p.2)

/-- Convert an absolute day number back to a `(year, month, day)` date
(month and day 1-based). -/
def dayToDate (k : CalendarKind) (n : Nat) : Nat × Nat × Nat :=
  let yr := findYearAux k (n + 1) 0 n
  let mr := splitMonths (monthLengths k yr.1) yr.2
  (yr.1, mr.1 + 1, mr.2 + 1)

/-- Modelled from the spec: a full date-time tuple
`(year, month, day, hour, minute, second whole + numerator/denominator)`;
years are nonnegative since the elapsed timeline starts at the calendar's
implicit zero instant. -/
structure DateTime where
  year : Nat
  month : Nat
  day : Nat
  hour : Nat
  minute : Nat
  secondW : Nat
  secondN : Int
  secondD : Int
deriving DecidableEq

/-- Modelled from the spec: `Calendar::getElapsedTime` accumulates whole
years' seconds (counting leap days since the epoch), whole months within the
year (including the leap day past February), whole days, then the time of
day; for the day-count-only kinds just the running day count plus time of
day. -/
def Calendar.getElapsedTime (k : CalendarKind) (t : DateTime) : TimeFrac :=
  if dayCountOnly k then
    ⟨((t.day - 1) * calSecondsPerDay k
        + t.hour * 3600 + t.minute * 60 + t.secondW : Nat), t.secondN, t.secondD⟩
  else
    ⟨(calSecondsOffset k + dateToDay k t.year t.month t.day * calSecondsPerDay k
        + t.hour * 3600 + t.minute * 60 + t.secondW : Nat), t.secondN, t.secondD⟩

/-- Modelled from the spec: `Calendar::getDateTime` is the inverse
decomposition: strip the epoch offset, split into day count and time of day,
peel whole years then whole months, and decompose the remainder into
hour/minute/second; the fractional second passes through unchanged. -/
def Calendar.getDateTime (k : CalendarKind) (f : TimeFrac) : DateTime :=
  let total := (f.whole - (calSecondsOffset k : Int)).toNat
  let spd := calSecondsPerDay k
  let tod := total % spd
  if dayCountOnly k then
    ⟨0, 0, total / spd + 1, tod / 3600, tod % 3600 / 60, tod % 60,
      f.numer, f.denom⟩
  else
    let ymd := dayToDate k (total / spd)
    ⟨ymd.1, ymd.2.1, ymd.2.2, tod / 3600, tod % 3600 / 60, tod % 60,
      f.numer, f.denom⟩

/-- Validity of a date-time tuple under a calendar kind: the calendar data is
well-formed, the time of day fits inside one day with canonical minute and
second fields, the fractional second is proper, and the date designates an
existing calendar day (or, for day-count-only kinds, a positive day count
with zero year and month). -/
def ValidDateTime (k : CalendarKind) (t : DateTime) : Prop :=
  0 < (calMonths k).sum ∧ 0 < calSecondsPerDay k ∧
  t.hour * 3600 + t.minute * 60 + t.secondW < calSecondsPerDay k ∧
  t.minute < 60 ∧ t.secondW < 60 ∧
  0 ≤ t.secondN ∧ t.secondN < t.secondD ∧
  (if dayCountOnly k then t.year = 0 ∧ t.month = 0 ∧ 1 ≤ t.day
   else 1 ≤ t.month ∧ t.month ≤ (calMonths k).length ∧ 1 ≤ t.day ∧
     t.day ≤ (monthLengths k t.year).getD (t.month - 1) 0)

instance (k : CalendarKind) (t : DateTime) : Decidable (ValidDateTime k t) := by
  unfold ValidDateTime
  infer_instance

/-- Running day total of the years `y0, y0+1, …, y0+n-1`. -/
def sumFrom (k : CalendarKind) : Nat → Nat → Nat
  | _, 0 => 0
  | y0, n + 1 => daysInYear k y0 + sumFrom k (y0 + 1) n

/-- Modelled from the spec: the time units of the configuration interface;
seconds/minutes/hours are physical units, days/months/years are
calendar-relative. -/
inductive TimeUnits where
  | seconds
  | minutes
  | hours
  | days
  | months
  | years
deriving DecidableEq

/-- Modelled from the spec: a `TimeInterval` is either calendar-agnostic
(stored as a `TimeFrac` of seconds) or calendar-relative (stored as an
integer count of years, months or days). -/
inductive TimeInterval where
  | phys (frac : TimeFrac)
  | cal (count : Int) (unit : TimeUnits)
deriving DecidableEq

/-- Modelled from the spec: interval construction from an integer count and a
unit; physical units are converted to seconds, calendar units are stored as
the bare count. -/
def TimeInterval.ofUnit (n : Int) : TimeUnits → TimeInterval
  | .seconds => .phys ⟨n, 0, 1⟩
  | .minutes => .phys ⟨n * 60, 0, 1⟩
  | .hours => .phys ⟨n * 3600, 0, 1⟩
  | u => .cal n u

/-- Modelled from the spec: `negAbsValue`-style sign flip on whichever
representation is populated. -/
def TimeInterval.neg : TimeInterval → TimeInterval
  | .phys f => .phys ⟨-f.whole, -f.numer, f.denom⟩
  | .cal n u => .cal (-n) u

/-- Modelled from the spec: `Calendar::incrementDate`.  Years add to the year
directly (no day clamping); months are carried through the total month index
with floor division; days convert the date to an absolute day number, add the
count and convert back. -/
def Calendar.incrementDate (k : CalendarKind) (count : Int) (u : TimeUnits)
    (y m d : Nat) : Nat × Nat × Nat :=
  match u with
  | .years => (((y : Int) + count).toNat, m, d)
  | .months =>
      let len : Int := ((calMonths k).length : Nat)
      let total : Int := (y : Int) * len + ((m : Int) - 1) + count
      ((total / len).toNat, (total % len).toNat + 1, d)
  | .days =>
      dayToDate k (((dateToDay k y m d : Nat) + count).toNat)
  | _ => (y, m, d)

/-- Modelled from the spec: a `TimeInstant` is an elapsed `TimeFrac`
interpreted through the active calendar. -/
structure TimeInstant where
  elapsed : TimeFrac
deriving DecidableEq

/-- Modelled from the spec: instant plus interval.  A physical interval adds
its fraction directly to the elapsed time; a calendar-relative interval
converts the instant to calendar components, calls
`Calendar::incrementDate`, and converts back. -/
def TimeInstant.addInterval (k : CalendarKind) (iv : TimeInterval)
    (t : TimeInstant) : TimeInstant :=
  match iv with
  | .phys f => ⟨t.elapsed.add f⟩
  | .cal n u =>
      let dt := Calendar.getDateTime k t.elapsed
      let ymd := Calendar.incrementDate k n u dt.year dt.month dt.day
      ⟨Calendar.getElapsedTime k
        { dt with year := ymd.1, month := ymd.2.1, day := ymd.2.2 }⟩

/-- Instant equality, by exact value comparison of the elapsed fractions. -/
def TimeInstant.eqv (a b : TimeInstant) : Bool :=
  a.elapsed.eqv b.elapsed

/-- Instant ordering, by exact value comparison of the elapsed fractions. -/
def TimeInstant.le (a b : TimeInstant) : Bool :=
  a.elapsed.le b.elapsed

/-- Modelled from the spec: an alarm is either one-shot (a single ring time)
or periodic (an interval anchored at a reference instant). -/
inductive AlarmKind where
  | oneShot (ringTime : TimeInstant)
  | periodic (interval : TimeInterval)
deriving DecidableEq

/-- Modelled from the spec: a named alarm with its previous ring time, the
current ringing flag, and the stopped flag that permanently disarms a
one-shot alarm after `stop()` (the repository's unit test requires a stopped
one-shot alarm never to ring again even when the current time stays past its
ring time). -/
structure Alarm where
  name : String
  kind : AlarmKind
  ringTimePrev : TimeInstant
  isRinging : Bool
  isStopped : Bool
deriving DecidableEq

/-- Modelled from the spec: `updateStatus(now)` sets the alarm ringing when
the trigger condition holds (one-shot: `now >= ring_time` and not stopped;
periodic: `now >= ring_time_prev + interval`) and never clears it by
itself. -/
def Alarm.updateStatus (k : CalendarKind) (now : TimeInstant) (a : Alarm) :
    Alarm :=
  match a.kind with
  | .oneShot rt =>
      if !a.isStopped && rt.le now then { a with isRinging := true } else a
  | .periodic iv =>
      if (a.ringTimePrev.addInterval k iv).le now then
        { a with isRinging := true }
      else a

/-- Modelled from the spec: `stop()` clears the ringing state (and disarms a
one-shot alarm for good). -/
def Alarm.stop (a : Alarm) : Alarm :=
  { a with isRinging := false, isStopped := true }

/-- Modelled from the spec: the re-arming loop of `reset(now)` — advance the
previous ring time by one interval, repeating while the next ring would
still not be in the future.  The fuel argument makes the loop structural;
`Alarm.reset` supplies fuel covering the whole-second gap to `now`, which
suffices for every interval that advances an instant by at least one whole
second. -/
def resetAux (step : TimeInstant → TimeInstant) (now : TimeInstant) :
    Nat → TimeInstant → TimeInstant
  | 0, p => step p
  | fuel + 1, p =>
      let q := step p
      if (step q).le now then resetAux step now fuel q else q

/-- Modelled from the spec: `reset(now)` re-arms a periodic alarm by
advancing `ring_time_prev` by whole intervals (never snapping to `now`)
until the next scheduled ring is strictly in the future, and clears the
ringing flag. -/
def Alarm.reset (k : CalendarKind) (now : TimeInstant) (a : Alarm) : Alarm :=
  match a.kind with
  | .periodic iv =>
      { a with
        isRinging := false,
        ringTimePrev := resetAux (TimeInstant.addInterval k iv) now
          ((now.elapsed.whole - a.ringTimePrev.elapsed.whole).toNat + 1)
          a.ringTimePrev }
  | _ => { a with isRinging := false }

/-- Modelled from the spec: the model clock owning start, step and the
current/previous/next instants, plus the list of attached alarms. -/
structure Clock where
  startTime : TimeInstant
  timeStep : TimeInterval
  currentTime : TimeInstant
  previousTime : TimeInstant
  nextTime : TimeInstant
  alarms : List Alarm
deriving DecidableEq

/-- Modelled from the spec: `advance()` shifts previous/current/next by one
time step and then updates the status of every attached alarm, in attachment
order, at the new current time. -/
def Clock.advance (k : CalendarKind) (c : Clock) : Clock :=
  let newCurr := c.currentTime.addInterval k c.timeStep
  { c with
    previousTime := c.currentTime,
    currentTime := newCurr,
    nextTime := newCurr.addInterval k c.timeStep,
    alarms := c.alarms.map (Alarm.updateStatus k newCurr) }

/-- Modelled from the spec: `setCurrentTime(t)` installs a new current time;
the previous and next times are the new current time minus and plus the
step, as the repository's unit test requires; attached alarms are not
touched. -/
def Clock.setCurrentTime (k : CalendarKind) (t : TimeInstant) (c : Clock) :
    Clock :=
  { c with
    currentTime := t,
    previousTime := t.addInterval k c.timeStep.neg,
    nextTime := t.addInterval k c.timeStep }

/-- Zero-padded fixed-width decimal rendering of a natural number. -/
def padNat : Nat → Nat → List Char
  | 0, _ => []
  | w + 1, n => padNat w (n / 10) ++ [Char.ofNat (48 + n % 10)]

/-- Modelled from the spec: the fractional-second digits of the canonical
string, the numerator scaled to the requested number of decimal digits. -/
def fracDigitsOf (numer denom : Int) (digits : Nat) : Int :=
  numer * ((10 ^ digits : Nat) : Int) / denom

/-- Modelled from the spec: `getString(year_width, frac_digits, separator)`
renders the canonical zero-padded timestamp
`YYYY-MM-DD<sep>hh:mm:ss.ffff` of an instant under the active calendar. -/
def TimeInstant.getString (k : CalendarKind) (yw fd : Nat) (sep : String)
    (t : TimeInstant) : String :=
  let dt := Calendar.getDateTime k t.elapsed
  String.mk (padNat yw dt.year) ++ "-" ++ String.mk (padNat 2 dt.month)
    ++ "-" ++ String.mk (padNat 2 dt.day) ++ sep
    ++ String.mk (padNat 2 dt.hour) ++ ":" ++ String.mk (padNat 2 dt.minute)
    ++ ":" ++ String.mk (padNat 2 dt.secondW) ++ "."
    ++ String.mk (padNat fd (fracDigitsOf dt.secondN dt.secondD fd).toNat)

/-- Read a decimal digit run, returning its value, its length and the
remaining characters. -/
def readNatAux : List Char → Nat → Nat → Nat × Nat × List Char
  | c :: cs, acc, cnt =>
      if 48 ≤ c.toNat ∧ c.toNat ≤ 57 then
        readNatAux cs (acc * 10 + (c.toNat - 48)) (cnt + 1)
      else (acc, cnt, c :: cs)
  | [], acc, cnt => (acc, cnt, [])

/-- Expect one specific character. -/
def expectChar (ch : Char) : List Char → Option (List Char)
  | c :: cs => if c = ch then some cs else none
  | [] => none

/-- Modelled from the spec: parse the canonical timestamp string
`YYYY-MM-DD<sep>hh:mm:ss.ffff` into date-time components; the fractional
digits become the numerator over a power-of-ten denominator. -/
def parseDateTimeString (s : String) : Option DateTime := do
  let p1 := readNatAux s.toList 0 0
  let r2 ← expectChar (Char.ofNat 45) p1.2.2
  let p2 := readNatAux r2 0 0
  let r4 ← expectChar (Char.ofNat 45) p2.2.2
  let p3 := readNatAux r4 0 0
  let r6 ← match p3.2.2 with
    | _ :: rest => some rest
    | [] => none
  let p4 := readNatAux r6 0 0
  let r8 ← expectChar (Char.ofNat 58) p4.2.2
  let p5 := readNatAux r8 0 0
  let r10 ← expectChar (Char.ofNat 58) p5.2.2
  let p6 := readNatAux r10 0 0
  let r12 ← expectChar (Char.ofNat 46) p6.2.2
  let p7 := readNatAux r12 0 0
  pure ⟨p1.1, p2.1, p3.1, p4.1, p5.1, p6.1, (p7.1 : Int),
    ((10 ^ p7.2.1 : Nat) : Int)⟩

/-- Modelled from the spec: the `TimeInstant` string constructor parses the
canonical timestamp and converts it to elapsed time under the active
calendar. -/
def TimeInstant.fromString (k : CalendarKind) (s : String) :
    Option TimeInstant :=
  (parseDateTimeString s).map fun dt => ⟨Calendar.getElapsedTime k dt⟩

/-! ### Theorems -/

theorem TimeFrac.value_eq_div (a : TimeFrac) (ha : a.denom ≠ 0) :
    a.value = ((a.whole * a.denom + a.numer : Int) : ℚ) / (a.denom : ℚ) := by
  have h : (a.denom : ℚ) ≠ 0 := Int.cast_ne_zero.mpr ha
  field_simp [TimeFrac.value]

theorem TimeFrac.le_iff_value (a b : TimeFrac)
    (ha : 0 < a.denom) (hb : 0 < b.denom) :
    a.le b = true ↔ a.value ≤ b.value := by
  have ha' : (0 : ℚ) < (a.denom : ℚ) := by exact_mod_cast ha
  have hb' : (0 : ℚ) < (b.denom : ℚ) := by exact_mod_cast hb
  rw [TimeFrac.value_eq_div a (by omega), TimeFrac.value_eq_div b (by omega),
    div_le_div_iff ha' hb', TimeFrac.le, decide_eq_true_eq]
  constructor
  · intro h; exact_mod_cast h
  · intro h; exact_mod_cast h

theorem TimeFrac.whole_le_value (a : TimeFrac) (h : a.Proper) :
    (a.whole : ℚ) ≤ a.value := by
  obtain ⟨hd, hn, _⟩ := h
  have hd' : (0 : ℚ) < (a.denom : ℚ) := by exact_mod_cast hd
  have hn' : (0 : ℚ) ≤ (a.numer : ℚ) := by exact_mod_cast hn
  have : 0 ≤ (a.numer : ℚ) / (a.denom : ℚ) := div_nonneg hn' (le_of_lt hd')
  unfold TimeFrac.value; linarith

theorem TimeFrac.value_lt_whole_add_one (a : TimeFrac) (h : a.Proper) :
    a.value < (a.whole : ℚ) + 1 := by
  obtain ⟨hd, _, hlt⟩ := h
  have hd' : (0 : ℚ) < (a.denom : ℚ) := by exact_mod_cast hd
  have hlt' : (a.numer : ℚ) < (a.denom : ℚ) := by exact_mod_cast hlt
  have : (a.numer : ℚ) / (a.denom : ℚ) < 1 := (div_lt_one hd').mpr hlt'
  unfold TimeFrac.value; linarith

/-- Addition is exact on the represented rational values whenever both
denominators are positive. -/
theorem TimeFrac.add_value (a b : TimeFrac)
    (ha : 0 < a.denom) (hb : 0 < b.denom) :
    (a.add b).value = a.value + b.value := by
  have hda : a.denom ≠ 0 := by omega
  have hdb : b.denom ≠ 0 := by omega
  have hl : 0 < ((Int.lcm a.denom b.denom : Nat) : Int) := by
    have h : Int.lcm a.denom b.denom ≠ 0 := by
      unfold Int.lcm
      exact Nat.lcm_ne_zero (by simpa using hda) (by simpa using hdb)
    exact_mod_cast Nat.pos_of_ne_zero h
  obtain ⟨ka, hka⟩ : a.denom ∣ ((Int.lcm a.denom b.denom : Nat) : Int) :=
    Int.dvd_lcm_left
  obtain ⟨kb, hkb⟩ : b.denom ∣ ((Int.lcm a.denom b.denom : Nat) : Int) :=
    Int.dvd_lcm_right
  have hka' : ((Int.lcm a.denom b.denom : Nat) : Int) / a.denom = ka := by
    rw [hka]; exact Int.mul_ediv_cancel_left ka hda
  have hkb' : ((Int.lcm a.denom b.denom : Nat) : Int) / b.denom = kb := by
    rw [hkb]; exact Int.mul_ediv_cancel_left kb hdb
  have hkapos : 0 < ka := by
    rcases lt_trichotomy ka 0 with h | h | h
    · exfalso; nlinarith [hl, hka]
    · exfalso; rw [h, mul_zero] at hka; omega
    · exact h
  have hkbpos : 0 < kb := by
    rcases lt_trichotomy kb 0 with h | h | h
    · exfalso; nlinarith [hl, hkb]
    · exfalso; rw [h, mul_zero] at hkb; omega
    · exact h
  unfold TimeFrac.add TimeFrac.value
  simp only [hka', hkb']
  rw [hka]
  have hqa : (a.denom : ℚ) ≠ 0 := Int.cast_ne_zero.mpr hda
  have hqb : (b.denom : ℚ) ≠ 0 := Int.cast_ne_zero.mpr hdb
  have hqka : (ka : ℚ) ≠ 0 := Int.cast_ne_zero.mpr (by omega)
  have hqkb : (kb : ℚ) ≠ 0 := Int.cast_ne_zero.mpr (by omega)
  have hcross : (a.denom : ℚ) * (ka : ℚ) = (b.denom : ℚ) * (kb : ℚ) := by
    have h : ((a.denom * ka : Int) : ℚ) = ((b.denom * kb : Int) : ℚ) := by
      rw [← hka, ← hkb]
    push_cast at h; linarith
  push_cast
  have e1 : ((a.numer : ℚ) * (ka : ℚ)) / ((a.denom : ℚ) * (ka : ℚ))
      = (a.numer : ℚ) / (a.denom : ℚ) := by
    rw [mul_div_mul_right _ _ hqka]
  have e2 : ((b.numer : ℚ) * (kb : ℚ)) / ((a.denom : ℚ) * (ka : ℚ))
      = (b.numer : ℚ) / (b.denom : ℚ) := by
    rw [hcross, mul_div_mul_right _ _ hqkb]
  rw [add_div, e1, e2]
  ring

/-- Conversion to a denominator that the current denominator divides leaves
the represented rational value unchanged. -/
theorem TimeFrac.convert_value (a : TimeFrac) (nd : Int)
    (ha : 0 < a.denom) (hnd : 0 < nd) (hdvd : a.denom ∣ nd) :
    (a.convert nd).value = a.value := by
  obtain ⟨k, hk⟩ := hdvd
  have hda : a.denom ≠ 0 := by omega
  have hkpos : 0 < k := by
    rcases lt_trichotomy k 0 with h | h | h
    · exfalso; nlinarith
    · exfalso; rw [h, mul_zero] at hk; omega
    · exact h
  have hdiv : (a.whole * a.denom + a.numer) * nd / a.denom
      = (a.whole * a.denom + a.numer) * k := by
    rw [hk, mul_comm a.denom k, ← mul_assoc]
    exact Int.mul_ediv_cancel _ hda
  unfold TimeFrac.convert TimeFrac.value
  simp only [hdiv]
  have hqa : (a.denom : ℚ) ≠ 0 := Int.cast_ne_zero.mpr hda
  have hqk : (k : ℚ) ≠ 0 := Int.cast_ne_zero.mpr (by omega)
  have hqnd : (nd : ℚ) = (a.denom : ℚ) * (k : ℚ) := by
    rw [hk]; push_cast; ring
  rw [hqnd]
  push_cast
  field_simp
  ring

theorem addLeapDay_sum_le (L : List Nat) : L.sum ≤ (addLeapDay L).sum := by
  match L with
  | [] => simp [addLeapDay]
  | [a] => simp [addLeapDay]
  | a :: b :: r => simp [addLeapDay]

theorem addLeapDay_length (L : List Nat) : (addLeapDay L).length = L.length := by
  match L with
  | [] => rfl
  | [a] => rfl
  | a :: b :: r => rfl

theorem daysInYear_pos (k : CalendarKind) (hm : 0 < (calMonths k).sum)
    (y : Nat) : 0 < daysInYear k y := by
  unfold daysInYear monthLengths
  split
  · exact lt_of_lt_of_le hm (addLeapDay_sum_le _)
  · exact hm

theorem monthLengths_length (k : CalendarKind) (y : Nat) :
    (monthLengths k y).length = (calMonths k).length := by
  unfold monthLengths
  split
  · exact addLeapDay_length _
  · rfl

theorem sumFrom_succ (k : CalendarKind) :
    ∀ n y0, sumFrom k y0 (n + 1) = sumFrom k y0 n + daysInYear k (y0 + n) := by
  intro n
  induction n with
  | zero => intro y0; simp [sumFrom]
  | succ m ih =>
      intro y0
      calc sumFrom k y0 (m + 1 + 1)
          = daysInYear k y0 + sumFrom k (y0 + 1) (m + 1) := rfl
        _ = daysInYear k y0 + (sumFrom k (y0 + 1) m + daysInYear k (y0 + 1 + m)) := by
            rw [ih]
        _ = daysInYear k y0 + sumFrom k (y0 + 1) m + daysInYear k (y0 + (m + 1)) := by
            rw [show y0 + 1 + m = y0 + (m + 1) from by omega]
            omega
        _ = sumFrom k y0 (m + 1) + daysInYear k (y0 + (m + 1)) := rfl

theorem daysBeforeYear_eq (k : CalendarKind) :
    ∀ y, daysBeforeYear k y = sumFrom k 0 y := by
  intro y
  induction y with
  | zero => rfl
  | succ m ih =>
      rw [show daysBeforeYear k (m + 1) = daysBeforeYear k m + daysInYear k m from rfl,
        ih, sumFrom_succ]
      simp

theorem findYearAux_exact (k : CalendarKind) (hm : 0 < (calMonths k).sum) :
    ∀ n y0 r fuel, r < daysInYear k (y0 + n) → sumFrom k y0 n + r < fuel →
      findYearAux k fuel y0 (sumFrom k y0 n + r) = (y0 + n, r) := by
  intro n
  induction n with
  | zero =>
      intro y0 r fuel hr hfuel
      simp only [sumFrom, Nat.zero_add] at hfuel ⊢
      match fuel, hfuel with
      | f + 1, _ =>
        simp only [findYearAux]
        rw [if_pos]
        · simp
        · simpa using hr
  | succ m ih =>
      intro y0 r fuel hr hfuel
      have hpos := daysInYear_pos k hm y0
      have hD : sumFrom k y0 (m + 1) + r
          = daysInYear k y0 + (sumFrom k (y0 + 1) m + r) := by
        show daysInYear k y0 + sumFrom k (y0 + 1) m + r = _
        omega
      match fuel, hfuel with
      | f + 1, hfuel =>
        simp only [findYearAux]
        rw [if_neg (by omega)]
        rw [show sumFrom k y0 (m + 1) + r - daysInYear k y0
            = sumFrom k (y0 + 1) m + r from by omega]
        rw [ih (y0 + 1) r f (by rw [show y0 + 1 + m = y0 + (m + 1) from by omega]; exact hr)
          (by omega)]
        rw [show y0 + 1 + m = y0 + (m + 1) from by omega]

theorem findYearAux_inv (k : CalendarKind) (hm : 0 < (calMonths k).sum) :
    ∀ fuel y0 D, D < fuel →
      sumFrom k y0 ((findYearAux k fuel y0 D).1 - y0) + (findYearAux k fuel y0 D).2 = D
      ∧ y0 ≤ (findYearAux k fuel y0 D).1
      ∧ (findYearAux k fuel y0 D).2 < daysInYear k (findYearAux k fuel y0 D).1 := by
  intro fuel
  induction fuel with
  | zero => intro y0 D hD; omega
  | succ f ih =>
      intro y0 D hD
      have hpos := daysInYear_pos k hm y0
      by_cases h : D < daysInYear k y0
      · simp only [findYearAux, if_pos h]
        refine ⟨?_, le_refl _, h⟩
        simp [sumFrom]
      · simp only [findYearAux, if_neg h]
        have hrec := ih (y0 + 1) (D - daysInYear k y0) (by omega)
        set p := findYearAux k f (y0 + 1) (D - daysInYear k y0) with hp
        obtain ⟨h1, h2, h3⟩ := hrec
        refine ⟨?_, by omega, h3⟩
        have e : p.1 - y0 = (p.1 - (y0 + 1)) + 1 := by omega
        rw [e]
        show daysInYear k y0 + sumFrom k (y0 + 1) (p.1 - (y0 + 1)) + p.2 = D
        omega

theorem splitMonths_exact :
    ∀ (L : List Nat) i r, i < L.length → r < L.getD i 0 →
      splitMonths L ((L.take i).sum + r) = (i, r) := by
  intro L
  induction L with
  | nil => intro i r hi _; simp at hi
  | cons a t ih =>
      intro i r hi hr
      match i with
      | 0 =>
          simp only [List.take_zero, List.sum_nil, Nat.zero_add, splitMonths]
          rw [if_pos (by simpa using hr)]
      | j + 1 =>
          have hj : j < t.length := by simpa using hi
          have hr' : r < t.getD j 0 := by simpa using hr
          have hD : ((a :: t).take (j + 1)).sum + r
              = a + ((t.take j).sum + r) := by
            simp [List.take_succ_cons]; omega
          rw [hD]
          simp only [splitMonths]
          rw [if_neg (by omega)]
          simp only [show a + ((t.take j).sum + r) - a = (t.take j).sum + r from by omega]
          rw [ih j r hj hr']

theorem splitMonths_inv :
    ∀ (L : List Nat) r, r < L.sum →
      (splitMonths L r).1 < L.length ∧
      (L.take (splitMonths L r).1).sum + (splitMonths L r).2 = r ∧
      (splitMonths L r).2 < L.getD (splitMonths L r).1 0 := by
  intro L
  induction L with
  | nil => intro r hr; simp at hr
  | cons a t ih =>
      intro r hr
      by_cases h : r < a
      · simp [splitMonths, h]
      · have hr' : r - a < t.sum := by simp at hr; omega
        obtain ⟨h1, h2, h3⟩ := ih (r - a) hr'
        simp only [splitMonths, if_neg h]
        refine ⟨by simpa using h1, ?_, by simpa using h3⟩
        simp only [List.take_succ_cons, List.sum_cons]
        omega

theorem take_sum_getD_le :
    ∀ (L : List Nat) i, i < L.length → (L.take i).sum + L.getD i 0 ≤ L.sum := by
  intro L
  induction L with
  | nil => intro i hi; simp at hi
  | cons a t ih =>
      intro i hi
      match i with
      | 0 => simp
      | j + 1 =>
          have := ih j (by simpa using hi)
          simp only [List.take_succ_cons, List.sum_cons, List.getD_cons_succ]
          omega

theorem dateToDay_dayToDate (k : CalendarKind) (hm : 0 < (calMonths k).sum)
    (n : Nat) :
    dateToDay k (dayToDate k n).1 (dayToDate k n).2.1 (dayToDate k n).2.2 = n := by
  have hyr := findYearAux_inv k hm (n + 1) 0 n (by omega)
  set yr := findYearAux k (n + 1) 0 n with hyrdef
  obtain ⟨h1, _, h3⟩ := hyr
  have hmr := splitMonths_inv (monthLengths k yr.1) yr.2 h3
  set mr := splitMonths (monthLengths k yr.1) yr.2 with hmrdef
  obtain ⟨m1, m2, m3⟩ := hmr
  show dateToDay k yr.1 (mr.1 + 1) (mr.2 + 1) = n
  unfold dateToDay daysBeforeMonth
  simp only [Nat.add_sub_cancel]
  rw [daysBeforeYear_eq]
  simp only [Nat.sub_zero] at h1
  omega

theorem offset_zero_of_dayCountOnly (k : CalendarKind)
    (h : dayCountOnly k = true) : calSecondsOffset k = 0 := by
  cases k <;> simp_all [dayCountOnly, calSecondsOffset]

theorem div_mod_split (q r c : Nat) (hc : 0 < c) (hr : r < c) :
    (q * c + r) / c = q ∧ (q * c + r) % c = r := by
  constructor
  · rw [Nat.add_comm, Nat.add_mul_div_right _ _ hc, Nat.div_eq_of_lt hr]
    omega
  · rw [Nat.add_comm, Nat.add_mul_mod_self_right, Nat.mod_eq_of_lt hr]

/-- Round-trip of the calendar conversions on every valid date-time tuple;
shared kernel of the claims below. -/
theorem getDateTime_getElapsedTime (k : CalendarKind) (t : DateTime)
    (h : ValidDateTime k t) :
    Calendar.getDateTime k (Calendar.getElapsedTime k t) = t := by
  obtain ⟨ty, tm, td, th, tmin, tsw, tsn, tsd⟩ := t
  obtain ⟨hm, hspd, htod, hmin, hsec, hn0, hnd, hrest⟩ := h
  simp only at htod hmin hsec hrest ⊢
  cases hA : dayCountOnly k with
  | true =>
      rw [hA] at hrest
      simp only [if_true] at hrest
      obtain ⟨hy0, hm0, hd1⟩ := hrest
      have hoff := offset_zero_of_dayCountOnly k hA
      simp only [Calendar.getElapsedTime, Calendar.getDateTime, hA, if_true]
      have hsplit := div_mod_split (td - 1) (th * 3600 + tmin * 60 + tsw)
        (calSecondsPerDay k) hspd htod
      have hassoc : (td - 1) * calSecondsPerDay k + th * 3600 + tmin * 60 + tsw
          = (td - 1) * calSecondsPerDay k + (th * 3600 + tmin * 60 + tsw) := by
        omega
      have htotal :
          ((((td - 1) * calSecondsPerDay k
              + (th * 3600 + tmin * 60 + tsw) : Nat) : Int)
            - ((calSecondsOffset k : Nat) : Int)).toNat
          = (td - 1) * calSecondsPerDay k + (th * 3600 + tmin * 60 + tsw) := by
        rw [hoff]; omega
      rw [hassoc, htotal, hsplit.1, hsplit.2]
      rw [DateTime.mk.injEq]
      refine ⟨by omega, by omega, by omega, by omega, by omega, by omega, rfl, rfl⟩
  | false =>
      rw [hA] at hrest
      simp only [Bool.false_eq_true, if_false] at hrest
      obtain ⟨hm1, hmle, hd1, hdle⟩ := hrest
      simp only [Calendar.getElapsedTime, Calendar.getDateTime, hA,
        Bool.false_eq_true, if_false]
      set r := daysBeforeMonth k ty tm + (td - 1) with hrdef
      set D := dateToDay k ty tm td with hDdef
      have hDr : D = daysBeforeYear k ty + r := by
        rw [hDdef, hrdef]; unfold dateToDay; omega
      have hrlt : r < daysInYear k ty := by
        have hle := take_sum_getD_le (monthLengths k ty) (tm - 1)
          (by rw [monthLengths_length]; omega)
        rw [hrdef]
        unfold daysBeforeMonth daysInYear
        omega
      have hsplit := div_mod_split D (th * 3600 + tmin * 60 + tsw)
        (calSecondsPerDay k) hspd htod
      have hassoc : calSecondsOffset k + D * calSecondsPerDay k
            + th * 3600 + tmin * 60 + tsw
          = calSecondsOffset k
            + (D * calSecondsPerDay k + (th * 3600 + tmin * 60 + tsw)) := by
        omega
      have htotal :
          (((calSecondsOffset k
              + (D * calSecondsPerDay k + (th * 3600 + tmin * 60 + tsw)) : Nat) : Int)
            - ((calSecondsOffset k : Nat) : Int)).toNat
          = D * calSecondsPerDay k + (th * 3600 + tmin * 60 + tsw) := by
        omega
      have hfind : findYearAux k (D + 1) 0 D = (ty, r) := by
        have he := findYearAux_exact k hm ty 0 r (D + 1)
          (by simpa using hrlt)
          (by rw [← daysBeforeYear_eq]; omega)
        rw [show sumFrom k 0 ty + r = D from by rw [← daysBeforeYear_eq]; omega] at he
        simpa using he
      have hmr : splitMonths (monthLengths k ty) r = (tm - 1, td - 1) := by
        have he := splitMonths_exact (monthLengths k ty) (tm - 1) (td - 1)
          (by rw [monthLengths_length]; omega) (by omega)
        rw [show ((monthLengths k ty).take (tm - 1)).sum + (td - 1) = r from by
          rw [hrdef]; unfold daysBeforeMonth; omega] at he
        exact he
      have hdd : dayToDate k D = (ty, tm - 1 + 1, td - 1 + 1) := by
        simp only [dayToDate, hfind, hmr]
      rw [hassoc, htotal, hsplit.1, hsplit.2, hdd]
      dsimp only
      rw [DateTime.mk.injEq]
      refine ⟨rfl, by omega, by omega, by omega, by omega, by omega, rfl, rfl⟩

theorem TimeFrac.add_whole_seconds (w n d s : Int) (hd : 0 < d) :
    TimeFrac.add ⟨w, n, d⟩ ⟨s, 0, 1⟩ = ⟨w + s, n, d⟩ := by
  unfold TimeFrac.add
  have hl : ((Int.lcm d 1 : Nat) : Int) = d := by
    rw [Int.lcm_one_right d]
    simpa using Int.natAbs_of_nonneg (le_of_lt hd)
  simp only [hl]
  rw [TimeFrac.mk.injEq]
  refine ⟨rfl, ?_, rfl⟩
  rw [Int.ediv_self (by omega), Int.ediv_one]
  ring

theorem iterate_addPhys (k : CalendarKind) (s : Int) (n : Nat) (t : TimeInstant)
    (hd : 0 < t.elapsed.denom) :
    (fun u => TimeInstant.addInterval k (.phys ⟨s, 0, 1⟩) u)^[n] t
      = ⟨⟨t.elapsed.whole + n * s, t.elapsed.numer, t.elapsed.denom⟩⟩ := by
  induction n with
  | zero => simp
  | succ m ih =>
      rw [Function.iterate_succ_apply', ih]
      show TimeInstant.addInterval k (.phys ⟨s, 0, 1⟩) _ = _
      unfold TimeInstant.addInterval
      simp only
      rw [TimeFrac.add_whole_seconds _ _ _ _ hd]
      rw [TimeInstant.mk.injEq, TimeFrac.mk.injEq]
      refine ⟨?_, rfl, rfl⟩
      push_cast
      ring

theorem tod_recompose (T : Nat) :
    T / 3600 * 3600 + T % 3600 / 60 * 60 + T % 60 = T := by
  omega

theorem addDays_phys (k : CalendarKind) (hm : 0 < (calMonths k).sum)
    (hspd : 0 < calSecondsPerDay k) (hA : dayCountOnly k = false)
    (c : Int) (hc : 0 ≤ c) (t : TimeInstant)
    (hw : ((calSecondsOffset k : Nat) : Int) ≤ t.elapsed.whole) :
    TimeInstant.addInterval k (.cal c .days) t
      = ⟨⟨t.elapsed.whole + c * ((calSecondsPerDay k : Nat) : Int),
          t.elapsed.numer, t.elapsed.denom⟩⟩ := by
  unfold TimeInstant.addInterval Calendar.getDateTime Calendar.incrementDate
  simp only [hA, Bool.false_eq_true, if_false]
  generalize hX : (t.elapsed.whole - ((calSecondsOffset k : Nat) : Int)).toNat = X
  generalize hD : X / calSecondsPerDay k = D
  generalize hT : X % calSecondsPerDay k = T
  rw [dateToDay_dayToDate k hm D]
  rw [show ((D : Int) + c).toNat = D + c.toNat from by omega]
  unfold Calendar.getElapsedTime
  simp only [hA, Bool.false_eq_true, if_false]
  rw [dateToDay_dayToDate k hm (D + c.toNat)]
  rw [TimeInstant.mk.injEq, TimeFrac.mk.injEq]
  refine ⟨?_, rfl, rfl⟩
  have hXeq : D * calSecondsPerDay k + T = X := by
    rw [← hD, ← hT, Nat.mul_comm]
    exact Nat.div_add_mod X (calSecondsPerDay k)
  have hwX : (X : Int) = t.elapsed.whole - ((calSecondsOffset k : Nat) : Int) := by
    rw [← hX]; omega
  have hNat : calSecondsOffset k + (D + c.toNat) * calSecondsPerDay k
        + T / 3600 * 3600 + T % 3600 / 60 * 60 + T % 60
      = calSecondsOffset k + X + c.toNat * calSecondsPerDay k := by
    rw [Nat.add_mul]
    omega
  rw [hNat]
  push_cast
  rw [Int.toNat_of_nonneg hc, hwX]
  ring

/-- C1: for every date-time tuple valid under the active calendar,
`Calendar::getDateTime` applied to `Calendar::getElapsedTime` of that tuple
returns the identical tuple (`getDateTime` is an exact left inverse of
`getElapsedTime`), for every supported calendar kind including Custom,
Gregorian, NoLeap, Julian, 360 Day, Julian Day and Modified Julian Day (the
Custom kind ranges over all well-formed custom month tables and day
lengths). -/
theorem claim_C1_getDateTime_left_inverse (k : CalendarKind) (t : DateTime)
    (h : ValidDateTime k t) :
    Calendar.getDateTime k (Calendar.getElapsedTime k t) = t :=
  getDateTime_getElapsedTime k t h

/-- Witness for C1 at the Gregorian date-time used by the repository's unit
test (1957-10-04 19:26:24.25). -/
theorem claim_C1_witness :
    ValidDateTime .gregorian ⟨1957, 10, 4, 19, 26, 24, 1, 4⟩ ∧
    Calendar.getDateTime .gregorian
        (Calendar.getElapsedTime .gregorian ⟨1957, 10, 4, 19, 26, 24, 1, 4⟩)
      = ⟨1957, 10, 4, 19, 26, 24, 1, 4⟩ :=
  ⟨by decide, claim_C1_getDateTime_left_inverse .gregorian _ (by decide)⟩

theorem iterate_addDays (k : CalendarKind) (hm : 0 < (calMonths k).sum)
    (hspd : 0 < calSecondsPerDay k) (hA : dayCountOnly k = false)
    (n : Nat) (t : TimeInstant)
    (hw : ((calSecondsOffset k : Nat) : Int) ≤ t.elapsed.whole) :
    (fun u => TimeInstant.addInterval k (.cal 1 .days) u)^[n] t
      = ⟨⟨t.elapsed.whole + ((n * calSecondsPerDay k : Nat) : Int),
          t.elapsed.numer, t.elapsed.denom⟩⟩ := by
  induction n with
  | zero => simp
  | succ m ih =>
      rw [Function.iterate_succ_apply', ih]
      rw [addDays_phys k hm hspd hA 1 (by omega)
        ⟨⟨t.elapsed.whole + ((m * calSecondsPerDay k : Nat) : Int),
          t.elapsed.numer, t.elapsed.denom⟩⟩
        (by
          show ((calSecondsOffset k : Nat) : Int)
            ≤ t.elapsed.whole + ((m * calSecondsPerDay k : Nat) : Int)
          omega)]
      rw [TimeInstant.mk.injEq, TimeFrac.mk.injEq]
      refine ⟨?_, rfl, rfl⟩
      push_cast
      ring

theorem addYears_eq (k : CalendarKind) (hA : dayCountOnly k = false)
    (c : Nat) (t : DateTime) (hv : ValidDateTime k t) :
    TimeInstant.addInterval k (.cal (c : Int) .years)
        ⟨Calendar.getElapsedTime k t⟩
      = ⟨Calendar.getElapsedTime k { t with year := t.year + c }⟩ := by
  unfold TimeInstant.addInterval
  simp only
  rw [getDateTime_getElapsedTime k t hv]
  unfold Calendar.incrementDate
  dsimp only
  refine congrArg TimeInstant.mk (congrArg (Calendar.getElapsedTime k) ?_)
  rw [DateTime.mk.injEq]
  refine ⟨by omega, rfl, rfl, rfl, rfl, rfl, rfl, rfl⟩

theorem addMonths_eq (k : CalendarKind) (hlen : (calMonths k).length = 12)
    (c : Nat) (t : DateTime) (hv : ValidDateTime k t) (hm1 : 1 ≤ t.month) :
    TimeInstant.addInterval k (.cal (c : Int) .months)
        ⟨Calendar.getElapsedTime k t⟩
      = ⟨Calendar.getElapsedTime k { t with
          year := (12 * t.year + (t.month - 1) + c) / 12,
          month := (12 * t.year + (t.month - 1) + c) % 12 + 1 }⟩ := by
  unfold TimeInstant.addInterval
  simp only
  rw [getDateTime_getElapsedTime k t hv]
  unfold Calendar.incrementDate
  dsimp only
  rw [hlen]
  refine congrArg TimeInstant.mk (congrArg (Calendar.getElapsedTime k) ?_)
  rw [DateTime.mk.injEq]
  refine ⟨by omega, by omega, rfl, rfl, rfl, rfl, rfl, rfl⟩

theorem monthLen28 (k : CalendarKind)
    (hk : k = .gregorian ∨ k = .noLeap ∨ k = .day360) :
    ∀ y i, i < 12 → 28 ≤ (monthLengths k y).getD i 0 := by
  intro y i
  have hchoice : monthLengths k y = calMonths k
      ∨ monthLengths k y = addLeapDay (calMonths k) := by
    unfold monthLengths
    split
    · exact Or.inr rfl
    · exact Or.inl rfl
  rcases hk with h | h | h <;> subst h <;>
    rcases hchoice with h2 | h2 <;> rw [h2] <;> revert i <;> decide

theorem valid_update (k : CalendarKind)
    (hk : k = .gregorian ∨ k = .noLeap ∨ k = .day360)
    (t : DateTime) (hv : ValidDateTime k t) (hd : t.day ≤ 28)
    (y m : Nat) (hm1 : 1 ≤ m) (hm12 : m ≤ 12) :
    ValidDateTime k { t with year := y, month := m } := by
  have hA : dayCountOnly k = false := by
    rcases hk with h | h | h <;> subst h <;> rfl
  have hlen : (calMonths k).length = 12 := by
    rcases hk with h | h | h <;> subst h <;> rfl
  obtain ⟨h1, h2, h3, h4, h5, h6, h7, h8⟩ := hv
  rw [hA] at h8
  simp only [Bool.false_eq_true, if_false] at h8
  refine ⟨h1, h2, h3, h4, h5, h6, h7, ?_⟩
  rw [hA]
  simp only [Bool.false_eq_true, if_false]
  have h28 := monthLen28 k hk y (m - 1) (by omega)
  refine ⟨by omega, by omega, by omega, by omega⟩

/-- C2: starting from any valid date-time under the Gregorian, NoLeap or
360-day calendar (with a day-of-month that exists in every month), advancing
five years by five 1-year calendar steps, by thirty 2-month calendar steps,
by one 1-day calendar step per elapsed day (`N` is the exact day count of the
five-year window, including leap days where the calendar has them), by `12*N`
2-hour physical steps, or by `72*N` 20-minute physical steps all produce the
same `TimeInstant` as adding a single 5-year calendar interval. -/
theorem claim_C2_five_year_integration (k : CalendarKind) (t : DateTime)
    (N : Nat)
    (hk : k = .gregorian ∨ k = .noLeap ∨ k = .day360)
    (hv : ValidDateTime k t) (hd : t.day ≤ 28)
    (hN : dateToDay k t.year t.month t.day + N
        = dateToDay k (t.year + 5) t.month t.day) :
    ((fun u => TimeInstant.addInterval k (TimeInterval.ofUnit 1 .years) u)^[5]
        ⟨Calendar.getElapsedTime k t⟩
      = TimeInstant.addInterval k (TimeInterval.ofUnit 5 .years)
          ⟨Calendar.getElapsedTime k t⟩)
    ∧ ((fun u => TimeInstant.addInterval k (TimeInterval.ofUnit 2 .months) u)^[30]
        ⟨Calendar.getElapsedTime k t⟩
      = TimeInstant.addInterval k (TimeInterval.ofUnit 5 .years)
          ⟨Calendar.getElapsedTime k t⟩)
    ∧ ((fun u => TimeInstant.addInterval k (TimeInterval.ofUnit 1 .days) u)^[N]
        ⟨Calendar.getElapsedTime k t⟩
      = TimeInstant.addInterval k (TimeInterval.ofUnit 5 .years)
          ⟨Calendar.getElapsedTime k t⟩)
    ∧ ((fun u => TimeInstant.addInterval k (TimeInterval.ofUnit 2 .hours) u)^[12 * N]
        ⟨Calendar.getElapsedTime k t⟩
      = TimeInstant.addInterval k (TimeInterval.ofUnit 5 .years)
          ⟨Calendar.getElapsedTime k t⟩)
    ∧ ((fun u => TimeInstant.addInterval k (TimeInterval.ofUnit 20 .minutes) u)^[72 * N]
        ⟨Calendar.getElapsedTime k t⟩
      = TimeInstant.addInterval k (TimeInterval.ofUnit 5 .years)
          ⟨Calendar.getElapsedTime k t⟩) := by
  have hA : dayCountOnly k = false := by
    rcases hk with h | h | h <;> subst h <;> rfl
  have hlen : (calMonths k).length = 12 := by
    rcases hk with h | h | h <;> subst h <;> rfl
  have hsp : calSecondsPerDay k = 86400 := by
    rcases hk with h | h | h <;> subst h <;> rfl
  obtain ⟨ty, tm, td, th, tmi, tsw, tsn, tsd⟩ := t
  have hm : 0 < (calMonths k).sum := hv.1
  have hspd : 0 < calSecondsPerDay k := hv.2.1
  have h8 := hv.2.2.2.2.2.2.2
  rw [hA] at h8
  simp only [Bool.false_eq_true, if_false] at h8
  simp only at h8 hd hN
  obtain ⟨hm1, hmle, hd1, hdle⟩ := h8
  rw [hlen] at hmle
  -- elapsed-time form of instants built from these components
  have hE : ∀ y m,
      Calendar.getElapsedTime k (DateTime.mk y m td th tmi tsw tsn tsd)
        = ⟨((calSecondsOffset k + dateToDay k y m td * calSecondsPerDay k
             + th * 3600 + tmi * 60 + tsw : Nat) : Int), tsn, tsd⟩ := by
    intro y m
    unfold Calendar.getElapsedTime
    simp only [hA, Bool.false_eq_true, if_false]
  -- the single 5-year jump
  have htgt : TimeInstant.addInterval k (TimeInterval.ofUnit 5 .years)
      ⟨Calendar.getElapsedTime k (DateTime.mk ty tm td th tmi tsw tsn tsd)⟩
      = ⟨Calendar.getElapsedTime k (DateTime.mk (ty + 5) tm td th tmi tsw tsn tsd)⟩ := by
    exact addYears_eq k hA 5 (DateTime.mk ty tm td th tmi tsw tsn tsd) hv
  -- year path
  have hyear : ∀ j : Nat,
      (fun u => TimeInstant.addInterval k (TimeInterval.ofUnit 1 .years) u)^[j]
        ⟨Calendar.getElapsedTime k (DateTime.mk ty tm td th tmi tsw tsn tsd)⟩
      = ⟨Calendar.getElapsedTime k (DateTime.mk (ty + j) tm td th tmi tsw tsn tsd)⟩ := by
    intro j
    induction j with
    | zero => rfl
    | succ j ih =>
        rw [Function.iterate_succ_apply', ih]
        exact addYears_eq k hA 1 (DateTime.mk (ty + j) tm td th tmi tsw tsn tsd)
          (valid_update k hk (DateTime.mk ty tm td th tmi tsw tsn tsd) hv hd
            (ty + j) tm hm1 (by omega))
  -- month path
  have hmonth : ∀ j : Nat,
      (fun u => TimeInstant.addInterval k (TimeInterval.ofUnit 2 .months) u)^[j]
        ⟨Calendar.getElapsedTime k (DateTime.mk ty tm td th tmi tsw tsn tsd)⟩
      = ⟨Calendar.getElapsedTime k
          (DateTime.mk ((12 * ty + (tm - 1) + 2 * j) / 12)
            ((12 * ty + (tm - 1) + 2 * j) % 12 + 1) td th tmi tsw tsn tsd)⟩ := by
    intro j
    induction j with
    | zero =>
        refine congrArg TimeInstant.mk (congrArg (Calendar.getElapsedTime k) ?_).symm
        rw [DateTime.mk.injEq]
        refine ⟨by omega, by omega, rfl, rfl, rfl, rfl, rfl, rfl⟩
    | succ j ih =>
        rw [Function.iterate_succ_apply', ih]
        have hstep := addMonths_eq k hlen 2
          (DateTime.mk ((12 * ty + (tm - 1) + 2 * j) / 12)
            ((12 * ty + (tm - 1) + 2 * j) % 12 + 1) td th tmi tsw tsn tsd)
          (valid_update k hk (DateTime.mk ty tm td th tmi tsw tsn tsd) hv hd
            ((12 * ty + (tm - 1) + 2 * j) / 12)
            ((12 * ty + (tm - 1) + 2 * j) % 12 + 1) (by omega) (by omega))
          (by show 1 ≤ (12 * ty + (tm - 1) + 2 * j) % 12 + 1; omega)
        refine Eq.trans hstep ?_
        refine congrArg TimeInstant.mk (congrArg (Calendar.getElapsedTime k) ?_)
        dsimp only
        rw [DateTime.mk.injEq]
        refine ⟨by omega, by omega, rfl, rfl, rfl, rfl, rfl, rfl⟩
  -- day path closed form
  have hdays :
      (fun u => TimeInstant.addInterval k (TimeInterval.ofUnit 1 .days) u)^[N]
        ⟨Calendar.getElapsedTime k (DateTime.mk ty tm td th tmi tsw tsn tsd)⟩
      = ⟨Calendar.getElapsedTime k (DateTime.mk (ty + 5) tm td th tmi tsw tsn tsd)⟩ := by
    rw [show TimeInterval.ofUnit 1 .days = TimeInterval.cal 1 .days from rfl]
    rw [hE ty tm]
    rw [iterate_addDays k hm hspd hA N _ (by dsimp only; omega)]
    rw [hE (ty + 5) tm]
    rw [TimeInstant.mk.injEq, TimeFrac.mk.injEq]
    refine ⟨?_, rfl, rfl⟩
    have hnat : calSecondsOffset k + dateToDay k (ty + 5) tm td * calSecondsPerDay k
          + th * 3600 + tmi * 60 + tsw
        = (calSecondsOffset k + dateToDay k ty tm td * calSecondsPerDay k
          + th * 3600 + tmi * 60 + tsw) + N * calSecondsPerDay k := by
      rw [← hN, Nat.add_mul]
      ring
    rw [hnat]
    push_cast
    ring
  -- physical path closed forms
  have hdenom : (0 : Int) < tsd := lt_of_le_of_lt hv.2.2.2.2.2.1 hv.2.2.2.2.2.2.1
  have hphys : ∀ (s : Int) (n : Nat), (n : Int) * s = ((N * 86400 : Nat) : Int) →
      (fun u => TimeInstant.addInterval k (.phys ⟨s, 0, 1⟩) u)^[n]
        ⟨Calendar.getElapsedTime k (DateTime.mk ty tm td th tmi tsw tsn tsd)⟩
      = ⟨Calendar.getElapsedTime k (DateTime.mk (ty + 5) tm td th tmi tsw tsn tsd)⟩ := by
    intro s n hs
    rw [hE ty tm]
    rw [iterate_addPhys k s n _ (by show (0 : Int) < tsd; exact hdenom)]
    rw [hE (ty + 5) tm]
    rw [TimeInstant.mk.injEq, TimeFrac.mk.injEq]
    refine ⟨?_, rfl, rfl⟩
    show ((calSecondsOffset k + dateToDay k ty tm td * calSecondsPerDay k
          + th * 3600 + tmi * 60 + tsw : Nat) : Int) + (n : Int) * s = _
    rw [hs]
    have hnat : calSecondsOffset k + dateToDay k (ty + 5) tm td * calSecondsPerDay k
          + th * 3600 + tmi * 60 + tsw
        = (calSecondsOffset k + dateToDay k ty tm td * calSecondsPerDay k
          + th * 3600 + tmi * 60 + tsw) + N * 86400 := by
      rw [← hN, hsp, Nat.add_mul]
      ring
    rw [hnat]
    push_cast
    ring
  refine ⟨?_, ?_, ?_, ?_, ?_⟩
  · rw [htgt, hyear 5]
  · rw [htgt, hmonth 30]
    refine congrArg TimeInstant.mk (congrArg (Calendar.getElapsedTime k) ?_)
    rw [DateTime.mk.injEq]
    refine ⟨by omega, by omega, rfl, rfl, rfl, rfl, rfl, rfl⟩
  · rw [htgt, hdays]
  · rw [htgt,
      show TimeInterval.ofUnit 2 .hours = TimeInterval.phys ⟨2 * 3600, 0, 1⟩ from rfl]
    exact hphys (2 * 3600) (12 * N) (by push_cast; ring)
  · rw [htgt,
      show TimeInterval.ofUnit 20 .minutes = TimeInterval.phys ⟨20 * 60, 0, 1⟩ from rfl]
    exact hphys (20 * 60) (72 * N) (by push_cast; ring)

/-- Witness for C2: the Gregorian start 0003-07-04 15:16:23.25, whose 5-year
window contains 1827 days (two leap days), instantiating the monthly path. -/
theorem claim_C2_witness :
    ValidDateTime .gregorian ⟨3, 7, 4, 15, 16, 23, 1, 4⟩ ∧
    dateToDay .gregorian 3 7 4 + 1827 = dateToDay .gregorian 8 7 4 ∧
    (fun u => TimeInstant.addInterval .gregorian (TimeInterval.ofUnit 2 .months) u)^[30]
        ⟨Calendar.getElapsedTime .gregorian ⟨3, 7, 4, 15, 16, 23, 1, 4⟩⟩
      = TimeInstant.addInterval .gregorian (TimeInterval.ofUnit 5 .years)
          ⟨Calendar.getElapsedTime .gregorian ⟨3, 7, 4, 15, 16, 23, 1, 4⟩⟩ :=
  ⟨by decide, by decide,
    (claim_C2_five_year_integration .gregorian ⟨3, 7, 4, 15, 16, 23, 1, 4⟩ 1827
      (Or.inl rfl) (by decide) (by decide) (by decide)).2.1⟩

/-- C5: under the Gregorian calendar `isLeapYear` holds exactly for years
divisible by 4 that are not century years unless divisible by 400 (so false
for 1900, true for 2000 and 1984); under the Julian calendar exactly for
years divisible by 4; and never under the NoLeap, 360 Day, Julian Day and
NoCalendar kinds. -/
theorem claim_C5_isLeapYear (y : Int) :
    (Calendar.isLeapYear .gregorian y = true
      ↔ (4 ∣ y ∧ (¬(100 ∣ y) ∨ 400 ∣ y)))
    ∧ (Calendar.isLeapYear .julian y = true ↔ 4 ∣ y)
    ∧ Calendar.isLeapYear .noLeap y = false
    ∧ Calendar.isLeapYear .day360 y = false
    ∧ Calendar.isLeapYear .julianDay y = false
    ∧ Calendar.isLeapYear .noCalendar y = false
    ∧ Calendar.isLeapYear .gregorian 1900 = false
    ∧ Calendar.isLeapYear .gregorian 2000 = true
    ∧ Calendar.isLeapYear .gregorian 1984 = true := by
  refine ⟨?_, ?_, rfl, rfl, rfl, rfl, by decide, by decide, by decide⟩
  · show gregorianLeap y = true ↔ _
    unfold gregorianLeap
    rw [Bool.and_eq_true, Bool.or_eq_true, beq_iff_eq, beq_iff_eq, bne_iff_ne]
    constructor
    · rintro ⟨h1, h2 | h2⟩
      · exact ⟨Int.dvd_of_emod_eq_zero h1,
          Or.inl (fun hd => h2 (Int.emod_eq_zero_of_dvd hd))⟩
      · exact ⟨Int.dvd_of_emod_eq_zero h1,
          Or.inr (Int.dvd_of_emod_eq_zero h2)⟩
    · rintro ⟨h1, h2 | h2⟩
      · exact ⟨Int.emod_eq_zero_of_dvd h1,
          Or.inl (fun he => h2 (Int.dvd_of_emod_eq_zero he))⟩
      · exact ⟨Int.emod_eq_zero_of_dvd h1,
          Or.inr (Int.emod_eq_zero_of_dvd h2)⟩
  · show (y % 4 == 0) = true ↔ _
    rw [beq_iff_eq]
    exact ⟨Int.dvd_of_emod_eq_zero, Int.emod_eq_zero_of_dvd⟩

/-- C6 counterexample: contrary to the spec's worked example, the sum of the
fractions (2,1,3) and (1,1,5) is (3,8,15), not (3,13,15), neither
structurally nor in represented value. -/
theorem claim_C6_counterexample :
    TimeFrac.add ⟨2, 1, 3⟩ ⟨1, 1, 5⟩ = ⟨3, 8, 15⟩ ∧
    TimeFrac.add ⟨2, 1, 3⟩ ⟨1, 1, 5⟩ ≠ ⟨3, 13, 15⟩ ∧
    TimeFrac.eqv (TimeFrac.add ⟨2, 1, 3⟩ ⟨1, 1, 5⟩) ⟨3, 13, 15⟩ = false := by
  refine ⟨by decide, by decide, by decide⟩

/-- C6 (amended): for all fractions with positive denominators the result of
addition recombines to the exact rational value (addition over a common
denominator), and in particular the sum of (2,2,3) and (1,1,5) — the operand
pair the repository's unit test actually exercises — equals (3,13,15). -/
theorem claim_C6_amended_fraction_exactness :
    (∀ a b : TimeFrac, 0 < a.denom → 0 < b.denom →
      (a.add b).value = a.value + b.value)
    ∧ TimeFrac.add ⟨2, 2, 3⟩ ⟨1, 1, 5⟩ = ⟨3, 13, 15⟩ :=
  ⟨fun a b ha hb => TimeFrac.add_value a b ha hb, by decide⟩

/-- Witness for C6 (amended) at the test's operand pair. -/
theorem claim_C6_witness :
    0 < (⟨2, 2, 3⟩ : TimeFrac).denom ∧ 0 < (⟨1, 1, 5⟩ : TimeFrac).denom ∧
    (TimeFrac.add ⟨2, 2, 3⟩ ⟨1, 1, 5⟩).value
      = (⟨2, 2, 3⟩ : TimeFrac).value + (⟨1, 1, 5⟩ : TimeFrac).value :=
  ⟨by decide, by decide,
    claim_C6_amended_fraction_exactness.1 ⟨2, 2, 3⟩ ⟨1, 1, 5⟩ (by decide) (by decide)⟩

/-- C7: `convert` re-expresses a fraction over the requested denominator
without reducing: converting the value 2 + 5/3 to denominator 15 yields
(0,55,15) — the whole part folded into the numerator, no simplification —
and conversion to any denominator the current one divides leaves the
represented rational value unchanged. -/
theorem claim_C7_convert :
    TimeFrac.convert ⟨2, 5, 3⟩ 15 = ⟨0, 55, 15⟩ ∧
    (∀ (a : TimeFrac) (nd : Int), 0 < a.denom → 0 < nd → a.denom ∣ nd →
      (a.convert nd).value = a.value) :=
  ⟨by decide, fun a nd h1 h2 h3 => TimeFrac.convert_value a nd h1 h2 h3⟩

/-- Witness for C7 at the test's conversion of (2,5,3) to denominator 15. -/
theorem claim_C7_witness :
    0 < (⟨2, 5, 3⟩ : TimeFrac).denom ∧ (0 : Int) < 15 ∧
    (⟨2, 5, 3⟩ : TimeFrac).denom ∣ 15 ∧
    (TimeFrac.convert ⟨2, 5, 3⟩ 15).value = (⟨2, 5, 3⟩ : TimeFrac).value :=
  ⟨by decide, by decide, by decide,
    claim_C7_convert.2 ⟨2, 5, 3⟩ 15 (by decide) (by decide) (by decide)⟩

theorem TimeFrac.le_whole (a b : TimeFrac) (ha : a.Proper) (hb : b.Proper)
    (h : a.le b = true) : a.whole ≤ b.whole := by
  have hv := (TimeFrac.le_iff_value a b ha.1 hb.1).mp h
  have h1 := TimeFrac.whole_le_value a ha
  have h2 := TimeFrac.value_lt_whole_add_one b hb
  have h3 : (a.whole : ℚ) < (b.whole : ℚ) + 1 := lt_of_le_of_lt (le_trans h1 hv) h2
  have h4 : a.whole < b.whole + 1 := by exact_mod_cast h3
  omega

theorem TimeFrac.le_false_of_whole_lt (a b : TimeFrac) (ha : a.Proper)
    (hb : b.Proper) (h : b.whole < a.whole) : a.le b = false := by
  cases hle : a.le b with
  | false => rfl
  | true =>
      have := TimeFrac.le_whole a b ha hb hle
      omega

theorem resetAux_spec (step : TimeInstant → TimeInstant) (now : TimeInstant)
    (hnow : now.elapsed.Proper)
    (hstep : ∀ u : TimeInstant, u.elapsed.Proper →
      (step u).elapsed.Proper ∧ u.elapsed.whole < (step u).elapsed.whole) :
    ∀ (fuel : Nat) (p : TimeInstant), p.elapsed.Proper →
      now.elapsed.whole < p.elapsed.whole + fuel →
      ∃ n : Nat, resetAux step now fuel p = step^[n] p
        ∧ (step (resetAux step now fuel p)).le now = false := by
  intro fuel
  induction fuel with
  | zero =>
      intro p hp hbound
      refine ⟨1, by simp [resetAux], ?_⟩
      show ((step (resetAux step now 0 p)).elapsed.le now.elapsed) = false
      obtain ⟨hq, hq1⟩ := hstep p hp
      obtain ⟨hqq, hqq1⟩ := hstep (step p) hq
      show ((step (step p)).elapsed.le now.elapsed) = false
      exact TimeFrac.le_false_of_whole_lt _ _ hqq hnow (by omega)
  | succ f ih =>
      intro p hp hbound
      obtain ⟨hq, hq1⟩ := hstep p hp
      by_cases hc : (step (step p)).le now = true
      · have hle : (step (step p)).elapsed.whole ≤ now.elapsed.whole := by
          obtain ⟨hqq, hqq1⟩ := hstep (step p) hq
          exact TimeFrac.le_whole _ _ hqq hnow hc
        have hqq1 := (hstep (step p) hq).2
        obtain ⟨n, hn, hcond⟩ := ih (step p) hq (by omega)
        refine ⟨n + 1, ?_, ?_⟩
        · show resetAux step now (f + 1) p = _
          rw [show resetAux step now (f + 1) p
              = resetAux step now f (step p) from by
            simp [resetAux, hc]]
          rw [hn, Function.iterate_succ_apply]
        · rw [show resetAux step now (f + 1) p
              = resetAux step now f (step p) from by
            simp [resetAux, hc]]
          exact hcond
      · have hc' : (step (step p)).le now = false := by
          cases h : (step (step p)).le now with
          | false => rfl
          | true => exact absurd h hc
        refine ⟨1, ?_, ?_⟩
        · show resetAux step now (f + 1) p = _
          simp [resetAux, hc']
        · rw [show resetAux step now (f + 1) p = step p from by
            simp [resetAux, hc']]
          exact hc'

/-- C3: for every periodic alarm with interval `I` and anchor
`ring_time_prev`, `updateStatus(now)` leaves the alarm ringing exactly when
it was already ringing or `now >= ring_time_prev + I` (so it never clears by
itself); and `reset(now)` advances `ring_time_prev` by whole applications of
`I` from the anchor (never snapping to `now`) until
`ring_time_prev + I > now`, so the next scheduled ring is strictly in the
future.  The reset statement assumes the fractions are proper and that one
interval application advances an instant by at least one whole second, which
holds for every alarm interval the repository uses. -/
theorem claim_C3_periodic_alarm (k : CalendarKind) (now : TimeInstant)
    (a : Alarm) (iv : TimeInterval) (hk : a.kind = .periodic iv) :
    ((a.updateStatus k now).isRinging
        = (a.isRinging || (a.ringTimePrev.addInterval k iv).le now))
    ∧ (now.elapsed.Proper → a.ringTimePrev.elapsed.Proper →
       (∀ u : TimeInstant, u.elapsed.Proper →
          (u.addInterval k iv).elapsed.Proper
          ∧ u.elapsed.whole < (u.addInterval k iv).elapsed.whole) →
       ∃ n : Nat,
         (a.reset k now).ringTimePrev
            = (fun u => u.addInterval k iv)^[n] a.ringTimePrev
         ∧ ((a.reset k now).ringTimePrev.addInterval k iv).le now = false) := by
  constructor
  · unfold Alarm.updateStatus
    rw [hk]
    by_cases hc : (a.ringTimePrev.addInterval k iv).le now = true
    · simp [hc]
    · have hc' : (a.ringTimePrev.addInterval k iv).le now = false := by
        cases h : (a.ringTimePrev.addInterval k iv).le now with
        | false => rfl
        | true => exact absurd h hc
      simp [hc']
  · intro hnow hprev hstep
    unfold Alarm.reset
    rw [hk]
    dsimp only
    exact resetAux_spec (fun u => u.addInterval k iv) now hnow hstep
      ((now.elapsed.whole - a.ringTimePrev.elapsed.whole).toNat + 1)
      a.ringTimePrev hprev (by omega)

theorem addPhys_step_proper (k : CalendarKind) (s : Int) (hs : 1 ≤ s) :
    ∀ u : TimeInstant, u.elapsed.Proper →
      (u.addInterval k (.phys ⟨s, 0, 1⟩)).elapsed.Proper
      ∧ u.elapsed.whole < (u.addInterval k (.phys ⟨s, 0, 1⟩)).elapsed.whole := by
  intro u hu
  obtain ⟨⟨w, nu, de⟩⟩ := u
  obtain ⟨h1, h2, h3⟩ := hu
  show (TimeFrac.add ⟨w, nu, de⟩ ⟨s, 0, 1⟩).Proper
    ∧ w < (TimeFrac.add ⟨w, nu, de⟩ ⟨s, 0, 1⟩).whole
  rw [TimeFrac.add_whole_seconds w nu de s h1]
  exact ⟨⟨h1, h2, h3⟩, by dsimp only; omega⟩

/-- Witness for C3: a 3-second periodic alarm anchored at 0, reset at the
instant 10.5 seconds. -/
theorem claim_C3_witness :
    (Alarm.mk ("w") (.periodic (.phys ⟨3, 0, 1⟩)) ⟨⟨0, 0, 1⟩⟩ false false).kind
      = .periodic (.phys ⟨3, 0, 1⟩) ∧
    (⟨⟨10, 1, 2⟩⟩ : TimeInstant).elapsed.Proper ∧
    (∃ n : Nat,
      ((Alarm.mk ("w") (.periodic (.phys ⟨3, 0, 1⟩)) ⟨⟨0, 0, 1⟩⟩ false false).reset
          .gregorian ⟨⟨10, 1, 2⟩⟩).ringTimePrev
        = (fun u => u.addInterval .gregorian (.phys ⟨3, 0, 1⟩))^[n] ⟨⟨0, 0, 1⟩⟩
      ∧ (((Alarm.mk ("w") (.periodic (.phys ⟨3, 0, 1⟩)) ⟨⟨0, 0, 1⟩⟩ false false).reset
            .gregorian ⟨⟨10, 1, 2⟩⟩).ringTimePrev.addInterval .gregorian
          (.phys ⟨3, 0, 1⟩)).le ⟨⟨10, 1, 2⟩⟩ = false) :=
  ⟨rfl, by decide,
    (claim_C3_periodic_alarm .gregorian ⟨⟨10, 1, 2⟩⟩
        (Alarm.mk ("w") (.periodic (.phys ⟨3, 0, 1⟩)) ⟨⟨0, 0, 1⟩⟩ false false)
        (.phys ⟨3, 0, 1⟩) rfl).2
      (by decide) (by decide) (addPhys_step_proper .gregorian 3 (by norm_num))⟩

/-- C4: `advance()` sets the previous time to the old current time, the
current time to the old current time plus the fixed step, the next time to
the new current time plus the step, and then updates every attached alarm at
the new current time in attachment order; consequently an attached periodic
alarm whose interval equals the (physical) time step and whose anchor is not
after the old current time is found ringing after the advance. -/
theorem claim_C4_clock_advance (k : CalendarKind) (c : Clock) (i : Nat)
    (a : Alarm) (s : Int)
    (ha : c.alarms.get? i = some a)
    (hstep : c.timeStep = .phys ⟨s, 0, 1⟩)
    (hak : a.kind = .periodic c.timeStep)
    (hdp : 0 < a.ringTimePrev.elapsed.denom)
    (hdc : 0 < c.currentTime.elapsed.denom)
    (hanchor : a.ringTimePrev.le c.currentTime = true) :
    (c.advance k).previousTime = c.currentTime
    ∧ (c.advance k).currentTime = c.currentTime.addInterval k c.timeStep
    ∧ (c.advance k).nextTime
        = (c.currentTime.addInterval k c.timeStep).addInterval k c.timeStep
    ∧ (c.advance k).alarms
        = c.alarms.map
            (Alarm.updateStatus k (c.currentTime.addInterval k c.timeStep))
    ∧ (c.advance k).alarms.get? i
        = some (a.updateStatus k (c.currentTime.addInterval k c.timeStep))
    ∧ (a.updateStatus k (c.currentTime.addInterval k c.timeStep)).isRinging
        = true := by
  refine ⟨rfl, rfl, rfl, rfl, ?_, ?_⟩
  · show (c.alarms.map _).get? i = _
    rw [List.get?_map, ha]
    rfl
  · have hP : a.ringTimePrev.addInterval k c.timeStep
        = ⟨⟨a.ringTimePrev.elapsed.whole + s, a.ringTimePrev.elapsed.numer,
            a.ringTimePrev.elapsed.denom⟩⟩ := by
      rw [hstep]
      exact congrArg TimeInstant.mk
        (TimeFrac.add_whole_seconds a.ringTimePrev.elapsed.whole
          a.ringTimePrev.elapsed.numer a.ringTimePrev.elapsed.denom s hdp)
    have hC : c.currentTime.addInterval k c.timeStep
        = ⟨⟨c.currentTime.elapsed.whole + s, c.currentTime.elapsed.numer,
            c.currentTime.elapsed.denom⟩⟩ := by
      rw [hstep]
      exact congrArg TimeInstant.mk
        (TimeFrac.add_whole_seconds c.currentTime.elapsed.whole
          c.currentTime.elapsed.numer c.currentTime.elapsed.denom s hdc)
    have hvle := (TimeFrac.le_iff_value a.ringTimePrev.elapsed
      c.currentTime.elapsed hdp hdc).mp hanchor
    have hcond : (a.ringTimePrev.addInterval k c.timeStep).le
        (c.currentTime.addInterval k c.timeStep) = true := by
      rw [hP, hC]
      show TimeFrac.le _ _ = true
      rw [TimeFrac.le_iff_value _ _ (by dsimp only; omega) (by dsimp only; omega)]
      unfold TimeFrac.value at hvle ⊢
      dsimp only
      push_cast
      push_cast at hvle
      linarith
    unfold Alarm.updateStatus
    rw [hak]
    simp [hcond]

/-- Witness for C4: a one-alarm clock with a 10-second step and a matching
10-second periodic alarm anchored at the current time 0. -/
theorem claim_C4_witness :
    ((Clock.mk ⟨⟨0, 0, 1⟩⟩ (.phys ⟨10, 0, 1⟩) ⟨⟨0, 0, 1⟩⟩ ⟨⟨0, 0, 1⟩⟩ ⟨⟨0, 0, 1⟩⟩
        [Alarm.mk ("p") (.periodic (.phys ⟨10, 0, 1⟩)) ⟨⟨0, 0, 1⟩⟩ false false]).alarms.get? 0
      = some (Alarm.mk ("p") (.periodic (.phys ⟨10, 0, 1⟩)) ⟨⟨0, 0, 1⟩⟩ false false))
    ∧ ((Alarm.mk ("p") (.periodic (.phys ⟨10, 0, 1⟩)) ⟨⟨0, 0, 1⟩⟩ false false).updateStatus
          .gregorian (TimeInstant.addInterval .gregorian (.phys ⟨10, 0, 1⟩) ⟨⟨0, 0, 1⟩⟩)).isRinging
      = true :=
  ⟨rfl,
    (claim_C4_clock_advance .gregorian
      (Clock.mk ⟨⟨0, 0, 1⟩⟩ (.phys ⟨10, 0, 1⟩) ⟨⟨0, 0, 1⟩⟩ ⟨⟨0, 0, 1⟩⟩ ⟨⟨0, 0, 1⟩⟩
        [Alarm.mk ("p") (.periodic (.phys ⟨10, 0, 1⟩)) ⟨⟨0, 0, 1⟩⟩ false false])
      0 (Alarm.mk ("p") (.periodic (.phys ⟨10, 0, 1⟩)) ⟨⟨0, 0, 1⟩⟩ false false)
      10 rfl rfl rfl (by decide) (by decide) (by decide)).2.2.2.2.2⟩

/-- C9: `setCurrentTime(t)` does not only overwrite the current time: the
previous time becomes `t` minus the clock's step and the next time becomes
`t` plus the step; instantiated concretely for a 20-minute-step clock set to
Gregorian 0002-01-01 00:00, whose previous time is 0001-12-31 23:40 and next
time 0002-01-01 00:20. -/
theorem claim_C9_setCurrentTime (k : CalendarKind) (c : Clock)
    (t : TimeInstant) :
    ((c.setCurrentTime k t).currentTime = t
    ∧ (c.setCurrentTime k t).previousTime = t.addInterval k c.timeStep.neg
    ∧ (c.setCurrentTime k t).nextTime = t.addInterval k c.timeStep)
    ∧ (((Clock.mk ⟨⟨0, 0, 1⟩⟩ (.phys ⟨1200, 0, 1⟩) ⟨⟨0, 0, 1⟩⟩ ⟨⟨0, 0, 1⟩⟩
          ⟨⟨0, 0, 1⟩⟩ []).setCurrentTime .gregorian
            ⟨Calendar.getElapsedTime .gregorian ⟨2, 1, 1, 0, 0, 0, 0, 1⟩⟩).previousTime
        = ⟨Calendar.getElapsedTime .gregorian ⟨1, 12, 31, 23, 40, 0, 0, 1⟩⟩
    ∧ ((Clock.mk ⟨⟨0, 0, 1⟩⟩ (.phys ⟨1200, 0, 1⟩) ⟨⟨0, 0, 1⟩⟩ ⟨⟨0, 0, 1⟩⟩
          ⟨⟨0, 0, 1⟩⟩ []).setCurrentTime .gregorian
            ⟨Calendar.getElapsedTime .gregorian ⟨2, 1, 1, 0, 0, 0, 0, 1⟩⟩).nextTime
        = ⟨Calendar.getElapsedTime .gregorian ⟨2, 1, 1, 0, 20, 0, 0, 1⟩⟩) := by
  refine ⟨⟨rfl, rfl, rfl⟩, by decide, by decide⟩

/-- C10: once `stop()` has been called on a one-shot alarm, it stays
not-ringing across every subsequent sequence of `updateStatus` calls, even
at times past its ring time: `stop()` permanently disarms a one-shot
alarm. -/
theorem claim_C10_oneshot_stop (k : CalendarKind) (a : Alarm)
    (rt : TimeInstant) (hk : a.kind = .oneShot rt)
    (ts : List TimeInstant) :
    (ts.foldl (fun st now => st.updateStatus k now) a.stop).isRinging
      = false := by
  have haux : ∀ (l : List TimeInstant) (b : Alarm),
      b.kind = .oneShot rt → b.isStopped = true → b.isRinging = false →
      (l.foldl (fun st now => st.updateStatus k now) b).isRinging = false := by
    intro l
    induction l with
    | nil => intro b _ _ h3; simpa using h3
    | cons x xs ih =>
        intro b h1 h2 h3
        show (xs.foldl _ (b.updateStatus k x)).isRinging = false
        have hb : b.updateStatus k x = b := by
          unfold Alarm.updateStatus
          rw [h1, h2]
          simp
        rw [hb]
        exact ih b h1 h2 h3
  exact haux ts a.stop (by rw [show a.stop.kind = a.kind from rfl, hk]) rfl rfl

/-- Witness for C10: a stopped one-shot alarm with ring time 5 stays silent
through updates at times 6 and 7. -/
theorem claim_C10_witness :
    (Alarm.mk ("o") (.oneShot ⟨⟨5, 0, 1⟩⟩) ⟨⟨0, 0, 1⟩⟩ false false).kind
      = .oneShot ⟨⟨5, 0, 1⟩⟩ ∧
    (([⟨⟨6, 0, 1⟩⟩, ⟨⟨7, 0, 1⟩⟩] : List TimeInstant).foldl
        (fun st now => st.updateStatus .gregorian now)
        (Alarm.mk ("o") (.oneShot ⟨⟨5, 0, 1⟩⟩) ⟨⟨0, 0, 1⟩⟩ false false).stop).isRinging
      = false :=
  ⟨rfl, claim_C10_oneshot_stop .gregorian
    (Alarm.mk ("o") (.oneShot ⟨⟨5, 0, 1⟩⟩) ⟨⟨0, 0, 1⟩⟩ false false)
    ⟨⟨5, 0, 1⟩⟩ rfl [⟨⟨6, 0, 1⟩⟩, ⟨⟨7, 0, 1⟩⟩]⟩

/-- C8: the Gregorian instant 2019-07-04 15:16:23.25 renders through
`getString(4, 4, "_")` as exactly `2019-07-04_15:16:23.2500`, and
constructing a `TimeInstant` from that string reproduces an instant equal
(by exact value comparison) to the original. -/
theorem claim_C8_string_roundtrip :
    TimeInstant.getString .gregorian 4 4 ("_")
        ⟨Calendar.getElapsedTime .gregorian ⟨2019, 7, 4, 15, 16, 23, 1, 4⟩⟩
      = ("2019-07-04_15:16:23.2500")
    ∧ ∃ t2 : TimeInstant,
        TimeInstant.fromString .gregorian ("2019-07-04_15:16:23.2500")
          = some t2
        ∧ TimeInstant.eqv t2
            ⟨Calendar.getElapsedTime .gregorian ⟨2019, 7, 4, 15, 16, 23, 1, 4⟩⟩
          = true := by
  have hR : Calendar.getDateTime .gregorian
      (Calendar.getElapsedTime .gregorian ⟨2019, 7, 4, 15, 16, 23, 1, 4⟩)
      = ⟨2019, 7, 4, 15, 16, 23, 1, 4⟩ :=
    getDateTime_getElapsedTime .gregorian ⟨2019, 7, 4, 15, 16, 23, 1, 4⟩
      (by decide)
  constructor
  · show TimeInstant.getString .gregorian 4 4 ("_") _ = _
    unfold TimeInstant.getString
    rw [show (⟨Calendar.getElapsedTime .gregorian
        ⟨2019, 7, 4, 15, 16, 23, 1, 4⟩⟩ : TimeInstant).elapsed
      = Calendar.getElapsedTime .gregorian ⟨2019, 7, 4, 15, 16, 23, 1, 4⟩
      from rfl]
    rw [hR]
    decide
  · refine ⟨⟨Calendar.getElapsedTime .gregorian
      ⟨2019, 7, 4, 15, 16, 23, 2500, 10000⟩⟩, ?_, ?_⟩
    · have hp : parseDateTimeString ("2019-07-04_15:16:23.2500")
          = some ⟨2019, 7, 4, 15, 16, 23, 2500, 10000⟩ := by decide
      unfold TimeInstant.fromString
      rw [hp]
      rfl
    · show TimeFrac.eqv
        (Calendar.getElapsedTime .gregorian ⟨2019, 7, 4, 15, 16, 23, 2500, 10000⟩)
        (Calendar.getElapsedTime .gregorian ⟨2019, 7, 4, 15, 16, 23, 1, 4⟩) = true
      unfold Calendar.getElapsedTime
      rw [if_neg (show ¬(dayCountOnly .gregorian = true) from by decide)]
      rw [if_neg (show ¬(dayCountOnly .gregorian = true) from by decide)]
      unfold TimeFrac.eqv
      rw [decide_eq_true_eq]
      dsimp only
      push_cast
      ring
